import Mathlib

/-!
Verification of the tree-visualization state machine (docs/js/tree.js) and the
content-display module of the ibrahimcomputer repository, as a shallow
embedding in Lean.

Modelling conventions:
* A d3 hierarchy node is `HNode`: its `data` record (name/slug), its visible
  `children` reference and its hidden `_children` reference.  In JavaScript
  each of the two references is either `null`/absent or an array; we model
  this as `Option Forest`.  `Forest` is a list of child nodes (a mutual
  inductive so that all recursions are structural).
* JavaScript truthiness is modelled where the code relies on it: an array is
  always truthy (so `children || _children` tests `isSome`), a string is
  truthy iff non-empty, `null`/`undefined` are falsy.
* Nodes are addressed by index paths (`List Nat`, the sequence of child
  indices from the root).  d3 assigns each node a unique integer id and
  compares ids; index paths are in bijection with the nodes of one loaded
  tree, so id equality is path equality.
* DOM rendering is modelled by the state the code writes into it (labels,
  class flags, panel fields), not by pixels.
-/

/-- JavaScript value stored in a node's `slug` field: absent, null, or a
string. -/
inductive Slug where
  | undef
  | null
  | str (s : String)
deriving DecidableEq, Repr

/-- Truthiness of a slug value, as used by `if (onNodeSelect && d.data.slug)`.
The empty string is falsy in JavaScript. -/
def Slug.truthy : Slug → Bool
  | .str s => s ≠ ""
  | _ => false

/-- String payload of a slug (used when the callback is invoked). -/
def Slug.text : Slug → String
  | .str s => s
  | _ => ""

/-- Static data carried by a tree node (`d.data` in d3): the `name` label,
possibly absent for malformed input, and the `slug` content key. -/
structure NodeData where
  name : Option String
  slug : Slug
deriving DecidableEq, Repr

mutual
/-- A d3 hierarchy node as tree.js manipulates it: `children` is the visible
children reference, `hidden` is the `_children` backup reference; each is
null (`none`) or an array. -/
inductive HNode where
  | mk (data : NodeData) (children : Option Forest) (hidden : Option Forest)
/-- An array of child nodes. -/
inductive Forest where
  | nil
  | cons (head : HNode) (tail : Forest)
end

/-- Data record of a node. -/
def HNode.data : HNode → NodeData
  | .mk d _ _ => d

/-- Visible children reference of a node. -/
def HNode.children : HNode → Option Forest
  | .mk _ cs _ => cs

/-- Hidden (`_children`) reference of a node. -/
def HNode.hidden : HNode → Option Forest
  | .mk _ _ hs => hs

/-- Element lookup in a child array. -/
def Forest.get? : Forest → Nat → Option HNode
  | .nil, _ => none
  | .cons c _, 0 => some c
  | .cons _ cs, n + 1 => cs.get? n

/-- In-place replacement of the element at an index (identity when out of
range), mirroring mutation of a found array element. -/
def Forest.set : Forest → Nat → HNode → Forest
  | .nil, _, _ => .nil
  | .cons _ cs, 0, x => .cons x cs
  | .cons c cs, n + 1, x => .cons c (cs.set n x)

/-- Length of a child array. -/
def Forest.length : Forest → Nat
  | .nil => 0
  | .cons _ cs => cs.length + 1

/-- Check from tree.js `hasContent`: the node carries content iff its slug is
neither null nor undefined (an empty string still counts as content). -/
def hasContent (d : NodeData) : Bool :=
  match d.slug with
  | .str _ => true
  | _ => false

/-- Check from tree.js `isLeaf`: no visible and no hidden children. -/
def isLeaf (n : HNode) : Bool :=
  n.children.isNone && n.hidden.isNone

/-- Check from tree.js `isCollapsed`: the root has no visible children
(`!root.children || root.children.length === 0`). -/
def isCollapsed (root : HNode) : Bool :=
  match root.children with
  | none => true
  | some .nil => true
  | some (.cons _ _) => false

mutual
/-- tree.js `collapse(d)`: if the node has visible children, they become the
hidden children (recursively collapsed) and the visible reference is nulled;
otherwise the node is untouched (hidden subtrees are not re-collapsed). -/
def collapse : HNode → HNode
  | .mk d (some cs) _ => .mk d none (some (collapseF cs))
  | n => n
/-- Pointwise `collapse` over a child array (`forEach(collapse)`). -/
def collapseF : Forest → Forest
  | .nil => .nil
  | .cons c cs => .cons (collapse c) (collapseF cs)
end

mutual
/-- tree.js `expandAll(d)`: restore hidden children to visible (overwriting
any visible reference, as the assignment does), then recurse into the now
visible children. -/
def expandAll : HNode → HNode
  | .mk d _ (some hs) => .mk d (some (expandAllF hs)) none
  | .mk d (some cs) none => .mk d (some (expandAllF cs)) none
  | n => n
/-- Pointwise `expandAll` over a child array. -/
def expandAllF : Forest → Forest
  | .nil => .nil
  | .cons c cs => .cons (expandAll c) (expandAllF cs)
end

/-- tree.js `toggle(d)`: swap the visible and hidden children references.
When both are set (an invariant violation) the hidden reference is
overwritten, exactly as the JavaScript assignments do. -/
def toggle : HNode → HNode
  | .mk d (some cs) _ => .mk d none (some cs)
  | .mk d none (some hs) => .mk d (some hs) none
  | n => n

/-- First child whose `data.name` strictly equals the target
(`children.find(c => c.data.name === targetName)`), with its index. -/
def findChild : Forest → String → Option (Nat × HNode)
  | .nil, _ => none
  | .cons c cs, name =>
    if c.data.name == some name then some (0, c)
    else (findChild cs name).map (fun r => (r.1 + 1, r.2))

/-- tree.js `expandPath(node, pathArray)`: restore the node's hidden children
if any, then find the child matching the next path segment and recurse into
it; unmatched segments stop the expansion silently. -/
def expandPath : HNode → List String → HNode
  | n, [] => n
  | .mk d cs hs, name :: rest =>
    let cs' := match hs with
      | some l => some l
      | none => cs
    match cs' with
    | none => .mk d none none
    | some l =>
      match findChild l name with
      | some (i, c) => .mk d (some (l.set i (expandPath c rest))) none
      | none => .mk d (some l) none

/-- tree.js `findNodeByPath(node, pathArray)`: resolve a name sequence
through visible or hidden children (`node.children || node._children`),
returning the index path and data of the final node, or `none` when a
segment fails to match. -/
def findNodeByPath : HNode → List String → Option (List Nat × NodeData)
  | n, [] => some ([], n.data)
  | .mk _ cs hs, name :: rest =>
    let kids := match cs with
      | some l => some l
      | none => hs
    match kids with
    | none => none
    | some l =>
      match findChild l name with
      | none => none
      | some (_i, c) =>
        (findNodeByPath c rest).map (fun r => (_i :: r.1, r.2))

/-- Node reached from `n` by following visible children along an index
path (the node a user can actually click). -/
def nodeAt : HNode → List Nat → Option HNode
  | n, [] => some n
  | .mk _ (some cs) _, i :: p =>
    match cs.get? i with
    | some c => nodeAt c p
    | none => none
  | _, _ :: _ => none

/-- Application of `toggle` to the visible node at an index path (identity
when the path resolves to nothing). -/
def toggleAt : HNode → List Nat → HNode
  | n, [] => toggle n
  | .mk d (some cs) hs, i :: p =>
    match cs.get? i with
    | some c => .mk d (some (cs.set i (toggleAt c p))) hs
    | none => .mk d (some cs) hs
  | n, _ :: _ => n

mutual
/-- Index paths of all currently visible nodes of the tree (the nodes d3
renders: those reachable from the root through `children` references),
in preorder. -/
def visiblePaths : HNode → List (List Nat)
  | .mk _ (some cs) _ => [] :: visibleF 0 cs
  | .mk _ none _ => [[]]
/-- Visible paths contributed by a child array whose first element has
index `j`. -/
def visibleF : Nat → Forest → List (List Nat)
  | _, .nil => []
  | j, .cons c cs => (visiblePaths c).map (j :: ·) ++ visibleF (j + 1) cs
end

mutual
/-- Representation invariant of the two-pointer scheme: no node has both its
visible and its hidden children reference non-null. -/
def wfNode : HNode → Bool
  | .mk _ cs hs => !(cs.isSome && hs.isSome) && wfOpt cs && wfOpt hs
/-- Invariant on an optional child array. -/
def wfOpt : Option Forest → Bool
  | none => true
  | some l => wfForest l
/-- Invariant on every node of a child array. -/
def wfForest : Forest → Bool
  | .nil => true
  | .cons c cs => wfNode c && wfForest cs
end

mutual
/-- Raw JSON value fed to `loadData`: JavaScript `null`, or an object with a
possibly missing `name`, a `slug` value, and a possibly missing `children`
array. -/
inductive RawValue where
  | null
  | obj (name : Option String) (slug : Slug) (children : Option RawForest)
/-- Array of raw child values. -/
inductive RawForest where
  | nil
  | cons (head : RawValue) (tail : RawForest)
end

mutual
/-- d3.hierarchy construction with accessor `d => d.children`: turns raw data
into nodes whose `_children` is unset.  Reading `.children` of a `null`
value throws a TypeError, modelled by the error case; an empty children
array yields a node without children (d3 checks `childs.length`). -/
def hierarchy : RawValue → Except String HNode
  | .null => .error "TypeError: cannot read properties of null"
  | .obj name slug children =>
    match children with
    | none => .ok (.mk ⟨name, slug⟩ none none)
    | some RawForest.nil => .ok (.mk ⟨name, slug⟩ none none)
    | some (RawForest.cons c cs) =>
      match hierarchyF (RawForest.cons c cs) with
      | .error e => .error e
      | .ok l => .ok (.mk ⟨name, slug⟩ (some l) none)
/-- Hierarchy construction over a raw child array. -/
def hierarchyF : RawForest → Except String Forest
  | .nil => .ok .nil
  | .cons c cs =>
    match hierarchy c with
    | .error e => .error e
    | .ok n =>
      match hierarchyF cs with
      | .error e => .error e
      | .ok l => .ok (.cons n l)
end

/-- Configured default landing policy (`config.defaultLanding` together with
`config.defaultPath`). -/
inductive Landing where
  | collapsed
  | expanded
  | path (names : List String)

/-- Observable state of the tree module: the root node graph, the selected
node (`selectedNode`, as an index path), whether a selection callback is
registered, the `isTreeExpanded` flag, and the history of
`onNodeSelect(slug, name)` invocations. -/
structure TreeState where
  root : HNode
  selected : Option (List Nat)
  hasCallback : Bool
  isTreeExpanded : Bool
  events : List (String × Option String)

/-- tree.js `selectNode(d)` acting on a node with data `d` at index path
`p`: unconditionally records the node as selected, and invokes the
callback with `(d.data.slug, d.data.name)` only when a callback is set and
the slug is truthy. -/
def selectNodeOn (s : TreeState) (p : List Nat) (d : NodeData) : TreeState :=
  { s with
    selected := some p
    events := s.events ++
      (if s.hasCallback && d.slug.truthy then [(d.slug.text, d.name)] else []) }

/-- tree.js `clearSelection()`: drops the selected node; all active-path
classes are recomputed from the empty selection. -/
def clearSelection (s : TreeState) : TreeState :=
  { s with selected := none }

/-- tree.js `applyDefaultLandingState()`: collapse everything, expand
everything, or collapse the root's subtrees and re-expand along the
configured path (the path branch runs only for a non-empty path). -/
def applyDefaultLandingState (cfg : Landing) (s : TreeState) : TreeState :=
  match cfg with
  | .collapsed =>
    match s.root with
    | .mk d (some cs) _ =>
      { s with root := .mk d none (some (collapseF cs)), isTreeExpanded := false }
    | _ => { s with isTreeExpanded := false }
  | .expanded => { s with root := expandAll s.root, isTreeExpanded := true }
  | .path names =>
    if names.isEmpty then s
    else
      let r1 := match s.root with
        | .mk d (some cs) hs => HNode.mk d (some (collapseF cs)) hs
        | r => r
      { s with root := expandPath r1 names, isTreeExpanded := true }

/-- tree.js `applyDefaultSelection()`: for `expanded`, select the root when
it carries content; for a non-empty `path`, resolve the path with
`findNodeByPath` and select the final node only when it carries content. -/
def applyDefaultSelection (cfg : Landing) (s : TreeState) : TreeState :=
  match cfg with
  | .collapsed => s
  | .expanded => if hasContent s.root.data then selectNodeOn s [] s.root.data else s
  | .path names =>
    if names.isEmpty then s
    else
      match findNodeByPath s.root names with
      | some (q, d) => if hasContent d then selectNodeOn s q d else s
      | none => s

/-- tree.js `loadData(data)`: build the hierarchy (propagating the TypeError
a null value would throw), then apply the default landing state and the
default selection.  Rendering (`update`) does not change this state. -/
def loadData (cfg : Landing) (hasCallback : Bool) (raw : RawValue) :
    Except String TreeState :=
  match hierarchy raw with
  | .error e => .error e
  | .ok r =>
    let s0 : TreeState :=
      { root := r, selected := none, hasCallback := hasCallback
        isTreeExpanded := false, events := [] }
    let s1 := applyDefaultLandingState cfg s0
    .ok (applyDefaultSelection cfg s1)

/-- tree.js `handleNodeClick(event, d)` for the visible node at index path
`p`: the first branch (root clicked while the tree shows only the root)
expands without selecting; otherwise the node is selected when it carries
content and toggled when it has visible or hidden children. -/
def handleNodeClick (s : TreeState) (p : List Nat) : TreeState :=
  match nodeAt s.root p with
  | none => s
  | some d =>
    if p = [] && isCollapsed s.root then
      { s with isTreeExpanded := true, root := toggleAt s.root [] }
    else
      let s1 := if hasContent d.data then selectNodeOn s p d.data else s
      if d.children.isSome || d.hidden.isSome then
        { s1 with root := toggleAt s1.root p }
      else s1

/-- d3 `node.ancestors()` in path form: the node itself followed by the
chain of parents up to the root (the parent of a path is its `dropLast`). -/
def pathAncestors : List Nat → List (List Nat)
  | [] => [[]]
  | a :: as => (a :: as) :: pathAncestors (a :: as).dropLast
termination_by p => p.length
decreasing_by simp [List.length_dropLast]

/-- tree.js `isOnActivePath(d)`: some ancestor of the selected node has the
same id as `d`; ids are unique, so id equality is path equality. -/
def isOnActivePath (s : TreeState) (p : List Nat) : Bool :=
  match s.selected with
  | none => false
  | some sel => (pathAncestors sel).contains p

/-- tree.js link `link--active` predicate (`updateActivePath`): both the
link's node and its parent are ancestors of the selected node; the root
(empty path) has no parent and no link. -/
def isLinkActive (s : TreeState) (p : List Nat) : Bool :=
  match s.selected with
  | none => false
  | some sel =>
    (pathAncestors sel).contains p && !p.isEmpty &&
      (pathAncestors sel).contains p.dropLast

/-- Label rendered next to a node (`text(d => d.data.name)`); d3 renders
null/undefined as the empty string. -/
def nodeLabel (d : NodeData) : String :=
  d.name.getD ""

/-- Element of a rendered content body as the panel manipulates it: a
paragraph with its text content, or any other element kept opaque.  (The
panel parses the HTML string into a detached element; bodies are modelled
at the level of their top-level elements, which is where the module's
`querySelector` hit lands for the cases specified.) -/
inductive HtmlNode where
  | p (text : String)
  | other (raw : String)
deriving DecidableEq, Repr

/-- Content record delivered to `renderContent` (the JSON contract of
section 6 of the spec).  `collaborators` is modelled as the joined list the
code produces for either the string or the array form. -/
structure Record where
  title : Option String
  date : Option String
  collaborators : List String
  description : Option String
  image : Option String
  content : List HtmlNode
  references : List String
  resources : List String

/-- Rendered item of the footer "resources" list: a link with an href and a
display text, or a plain list item. -/
inductive ResItem where
  | link (href : String) (text : String)
  | plain (text : String)
deriving DecidableEq, Repr

/-- Image area of the panel: hidden, showing a source, or showing the error
placeholder graphic. -/
inductive ImageArea where
  | hidden
  | shown (src : String)
  | placeholder
deriving DecidableEq, Repr

/-- Observable DOM state the content module writes: title text, meta item
texts, description text and visibility, image area, remaining body
elements, footer lists, and panel visibility. -/
structure PanelState where
  title : String
  meta : List String
  description : String
  descriptionVisible : Bool
  image : ImageArea
  body : List HtmlNode
  footerReferences : List String
  footerResources : List ResItem
  visible : Bool
  treeHasContent : Bool

/-- Panel state right after `init` (all areas empty, panel hidden). -/
def panelInit : PanelState :=
  { title := "", meta := [], description := "", descriptionVisible := false
    image := .hidden, body := [], footerReferences := [], footerResources := []
    visible := false, treeHasContent := false }

/-- JavaScript truthiness of an optional string field (absent and the empty
string are falsy). -/
def strTruthy : Option String → Bool
  | some s => s ≠ ""
  | none => false

/-- Effect of `querySelector('p')` followed by `firstP.remove()` on the
body: text of the first paragraph, and the body with that paragraph
removed; `none` when no paragraph exists. -/
def findFirstP : List HtmlNode → Option (String × List HtmlNode)
  | [] => none
  | .p s :: rest => some (s, rest)
  | .other r :: rest =>
    (findFirstP rest).map (fun q => (q.1, .other r :: q.2))

/-- Texts of all paragraphs of a body, in order. -/
def paraTexts : List HtmlNode → List String
  | [] => []
  | .p s :: rest => s :: paraTexts rest
  | .other _ :: rest => paraTexts rest

/-- Date formatting (`formatDate`) is locale-dependent presentation and is
abstracted as the identity on the date string; no claim depends on it. -/
def formatDate (s : String) : String := s

/-- Host-and-port part of an authority: everything after the last '@'
(userinfo is stripped, as the WHATWG URL parser does). -/
def afterLastAt (l : List Char) : List Char :=
  (l.reverse.takeWhile (fun c => c ≠ '@')).reverse

/-- Characters permitted in a URL scheme (RFC 3986 / WHATWG). -/
def isSchemeChar (c : Char) : Bool :=
  c.isAlpha || c.isDigit || c = '+' || c = '-' || c = '.'

/-- Model of `new URL(s).hostname` for the http(s)-special-scheme parsing
that the resources renderer reaches: `none` is the TypeError the
constructor throws.  Following the WHATWG parser for special schemes:
the scheme is an alphanumeric run started by a letter and ended by ':'
(a string like "httpx" has no ':' and throws); after the ':' any run of
slashes (or backslashes) is skipped, so "http:foo" parses like
"http://foo"; the authority extends to the first '/', '\\', '?' or '#';
userinfo up to the last '@' is stripped; a ':' port suffix is dropped;
the host is lowercased; an empty host throws, as it does for http URLs.
IPv6 bracket hosts, percent-encoding and IDNA mapping of non-ASCII hosts
are outside the model: hosts are plain ASCII domains. -/
def urlHostname (s : String) : Option String :=
  let cs := s.toList
  match cs with
  | [] => none
  | c0 :: _ =>
    if !c0.isAlpha then none
    else
      let scheme := cs.takeWhile isSchemeChar
      let rest := cs.drop scheme.length
      match rest with
      | ':' :: r =>
        let r2 := r.dropWhile (fun c => c = '/' || c = '\\')
        let authority := r2.takeWhile
          (fun c => c ≠ '/' && c ≠ '\\' && c ≠ '?' && c ≠ '#')
        let host := (afterLastAt authority).takeWhile (fun c => c ≠ ':')
        if host.isEmpty then none
        else some (String.mk (host.map Char.toLower))
      | _ => none

/-- Replacement of the first occurrence of a pattern in a character list. -/
def replaceFirstAux (pat repl : List Char) : List Char → List Char
  | [] => []
  | c :: rest =>
    if pat.isPrefixOf (c :: rest) then repl ++ (c :: rest).drop pat.length
    else c :: replaceFirstAux pat repl rest

/-- Replacement of only the first occurrence of a pattern, as JavaScript
`String.prototype.replace` with a string pattern does (Lean's
`String.replace` replaces every occurrence, so this is spelled out). -/
def replaceFirst (s pat repl : String) : String :=
  String.mk (replaceFirstAux pat.toList repl.toList s.toList)

/-- JavaScript `String.prototype.startsWith` over character lists. -/
def jsStartsWith (s pre : String) : Bool :=
  pre.toList.isPrefixOf s.toList

/-- Rendering of one item of the `resources` list: items starting with the
literal prefix "http" become links displaying `hostname.replace('www.', '')`;
everything else is a plain list item.  `none` is the TypeError thrown by
`new URL(res)` on a malformed http-prefixed item, which aborts the
enclosing `renderContent` call. -/
def renderResourceItem (res : String) : Option ResItem :=
  if jsStartsWith res "http" then
    (urlHostname res).map (fun h => .link res (replaceFirst h "www." ""))
  else some (.plain res)

/-- Rendering of the whole `resources` list (`data.resources.map(...)`):
the first item whose URL constructor throws aborts the map. -/
def renderResources : List String → Option (List ResItem)
  | [] => some []
  | r :: rs =>
    match renderResourceItem r with
    | none => none
    | some item => (renderResources rs).map (item :: ·)

/-- Content module `renderContent(data, fallbackName)`: title falls back
when the title field is falsy; meta collects date and collaborators;
the description uses the explicit field when truthy, otherwise extracts
and removes the body's first paragraph; the image area is hidden for a
falsy, "null" or empty image field; the footer lists references, and
resources via `renderResourceItem`.  The footer assignment is the last
DOM write: when a resource item makes the URL constructor throw, the
exception aborts renderContent there, so the earlier writes (title
through body) stand but `contentFooter.innerHTML` keeps its previous
content.  Panel visibility is untouched (`show` is a separate call). -/
def renderContent (data : Record) (fallbackName : String) (st : PanelState) :
    PanelState :=
  let title := match data.title with
    | some t => if t ≠ "" then t else fallbackName
    | none => fallbackName
  let meta :=
    (if strTruthy data.date then [formatDate (data.date.getD "")] else []) ++
      (if data.collaborators.isEmpty then []
       else [String.intercalate ", " data.collaborators])
  let descBody : String × Bool × List HtmlNode :=
    if strTruthy data.description then
      (data.description.getD "", true, data.content)
    else
      match findFirstP data.content with
      | some (s, rest) => (s, true, rest)
      | none => ("", false, data.content)
  let image := match data.image with
    | some src => if src ≠ "" && src ≠ "null" then ImageArea.shown src else .hidden
    | none => .hidden
  let footer : List String × List ResItem :=
    match renderResources data.resources with
    | some items => (data.references, items)
    | none => (st.footerReferences, st.footerResources)
  { st with
    title := title
    meta := meta
    description := descBody.1
    descriptionVisible := descBody.2.1
    image := image
    body := descBody.2.2
    footerReferences := footer.1
    footerResources := footer.2 }

/-- Content module `renderError(name)`: fallback title (`name || 'Not
Found'`), cleared meta and body, fixed error description, placeholder
graphic, empty footer.  Panel visibility is untouched. -/
def renderError (name : String) (st : PanelState) : PanelState :=
  { st with
    title := if name ≠ "" then name else "Not Found"
    meta := []
    description := "Content could not be loaded."
    descriptionVisible := true
    image := .placeholder
    body := []
    footerReferences := []
    footerResources := [] }

/-- Content module `show()`: marks the panel visible and the tree section
as having content. -/
def showPanel (st : PanelState) : PanelState :=
  { st with visible := true, treeHasContent := true }

/-- Content module `isVisible()`. -/
def isVisible (st : PanelState) : Bool :=
  st.visible

/-- Outcome of the `fetch` + `response.json()` pair inside `loadContent`:
a network failure (fetch rejects), or a response with its `ok` flag and
the parsed JSON (`none` when `response.json()` throws a parse error). -/
inductive FetchOutcome where
  | netError
  | resp (ok : Bool) (json : Option Record)

/-- Reading of an outcome as a failure of the fetch/parse pipeline: the
thrown paths of `loadContent` (rejection, `!response.ok`, parse error). -/
def FetchOutcome.failed : FetchOutcome → Bool
  | .netError => true
  | .resp ok json => !ok || json.isNone

/-- Content module `loadContent(slug, name)` given the outcome of its fetch:
every thrown failure is caught and rendered as the error placeholder —
including a TypeError thrown inside `renderContent` by `new URL` on a
malformed resource item, whose partial writes are then overwritten by
`renderError`; both paths end in `show()`.  The function is total — no
outcome escapes as an exception. -/
def loadContent (outcome : FetchOutcome) (name : String) (st : PanelState) :
    PanelState :=
  match outcome with
  | .netError => showPanel (renderError name st)
  | .resp ok json =>
    if ok then
      match json with
      | some data =>
        if (renderResources data.resources).isNone then
          showPanel (renderError name (renderContent data name st))
        else showPanel (renderContent data name st)
      | none => showPanel (renderError name st)
    else showPanel (renderError name st)

mutual
/-- Invariant preservation for `collapse`. -/
theorem wf_collapse : ∀ t, wfNode t = true → wfNode (collapse t) = true
  | .mk _ none _, h => h
  | .mk d (some cs) hs, h => by
    simp only [wfNode, wfOpt, Bool.and_eq_true, Bool.not_eq_true'] at h
    simp only [collapse, wfNode, wfOpt, Bool.and_eq_true, Bool.not_eq_true']
    exact ⟨⟨rfl, trivial⟩, wf_collapseF cs h.1.2⟩
/-- Invariant preservation for `collapse` over a child array. -/
theorem wf_collapseF : ∀ l, wfForest l = true → wfForest (collapseF l) = true
  | .nil, _ => rfl
  | .cons c cs, h => by
    simp only [wfForest, Bool.and_eq_true] at h ⊢
    exact ⟨wf_collapse c h.1, wf_collapseF cs h.2⟩
end

mutual
/-- Invariant preservation for `expandAll`. -/
theorem wf_expandAll : ∀ t, wfNode t = true → wfNode (expandAll t) = true
  | .mk d none (some hs), h => by
    simp only [wfNode, wfOpt, Bool.and_eq_true, Bool.not_eq_true'] at h
    simp only [expandAll, wfNode, wfOpt, Bool.and_eq_true, Bool.not_eq_true']
    exact ⟨⟨rfl, wf_expandAllF hs h.2⟩, trivial⟩
  | .mk d (some cs) (some hs), h => by
    simp [wfNode] at h
  | .mk d (some cs) none, h => by
    simp only [wfNode, wfOpt, Bool.and_eq_true, Bool.not_eq_true'] at h
    simp only [expandAll, wfNode, wfOpt, Bool.and_eq_true, Bool.not_eq_true']
    exact ⟨⟨rfl, wf_expandAllF cs h.1.2⟩, trivial⟩
  | .mk _ none none, h => h
/-- Invariant preservation for `expandAll` over a child array. -/
theorem wf_expandAllF : ∀ l, wfForest l = true → wfForest (expandAllF l) = true
  | .nil, _ => rfl
  | .cons c cs, h => by
    simp only [wfForest, Bool.and_eq_true] at h ⊢
    exact ⟨wf_expandAll c h.1, wf_expandAllF cs h.2⟩
end

/-- Invariant preservation for `toggle`. -/
theorem wf_toggle : ∀ t, wfNode t = true → wfNode (toggle t) = true
  | .mk d (some cs) hs, h => by
    simp only [wfNode, wfOpt, Bool.and_eq_true, Bool.not_eq_true'] at h
    simp only [toggle, wfNode, wfOpt, Bool.and_eq_true, Bool.not_eq_true']
    exact ⟨⟨rfl, trivial⟩, h.1.2⟩
  | .mk d none (some hs), h => by
    simp only [wfNode, wfOpt, Bool.and_eq_true, Bool.not_eq_true'] at h
    simp only [toggle, wfNode, wfOpt, Bool.and_eq_true, Bool.not_eq_true']
    exact ⟨⟨rfl, h.2⟩, trivial⟩
  | .mk _ none none, h => h

/-- Membership of a `findChild` hit in the invariant of its array. -/
theorem findChild_wf : ∀ (l : Forest) (name : String) (i : Nat) (c : HNode),
    wfForest l = true → findChild l name = some (i, c) → wfNode c = true
  | .nil, _, _, _, _, hfind => by simp [findChild] at hfind
  | .cons c0 cs, name, i, c, h, hfind => by
    simp only [wfForest, Bool.and_eq_true] at h
    rw [findChild] at hfind
    by_cases hn : (c0.data.name == some name) = true
    · rw [if_pos hn] at hfind
      injection hfind with he
      cases he
      exact h.1
    · rw [if_neg hn] at hfind
      rcases hmap : findChild cs name with _ | ⟨r1, r2⟩
      · rw [hmap] at hfind; simp at hfind
      · rw [hmap] at hfind
        simp only [Option.map_some'] at hfind
        injection hfind with he
        rw [Prod.mk.injEq] at he
        exact he.2 ▸ findChild_wf cs name r1 r2 h.2 hmap

/-- Invariant preservation for `Forest.set` with an invariant-respecting
replacement. -/
theorem wfForest_set : ∀ (l : Forest) (i : Nat) (x : HNode),
    wfForest l = true → wfNode x = true → wfForest (l.set i x) = true
  | .nil, _, _, h, _ => h
  | .cons c cs, 0, x, h, hx => by
    simp only [wfForest, Bool.and_eq_true] at h
    simp only [Forest.set, wfForest, Bool.and_eq_true]
    exact ⟨hx, h.2⟩
  | .cons c cs, i + 1, x, h, hx => by
    simp only [wfForest, Bool.and_eq_true] at h
    simp only [Forest.set, wfForest, Bool.and_eq_true]
    exact ⟨h.1, wfForest_set cs i x h.2 hx⟩

/-- Invariant preservation for `expandPath`. -/
theorem wf_expandPath : ∀ (t : HNode) (names : List String),
    wfNode t = true → wfNode (expandPath t names) = true
  | .mk _ _ _, [], h => h
  | .mk d cs hs, name :: rest, h => by
    simp only [wfNode, Bool.and_eq_true, Bool.not_eq_true'] at h
    rcases hs with _ | l
    · rcases cs with _ | l
      · simp [expandPath, wfNode, wfOpt]
      · have hwl : wfForest l = true := h.1.2
        simp only [expandPath]
        rcases hfind : findChild l name with _ | ⟨i, c⟩
        · simp only [hfind, wfNode, wfOpt, Bool.and_eq_true, Bool.not_eq_true']
          exact ⟨⟨rfl, hwl⟩, trivial⟩
        · simp only [hfind, wfNode, wfOpt, Bool.and_eq_true, Bool.not_eq_true']
          have hwfc : wfNode c = true := findChild_wf l name i c hwl hfind
          exact ⟨⟨rfl, wfForest_set l i _ hwl (wf_expandPath c rest hwfc)⟩, trivial⟩
    · have hwl : wfForest l = true := h.2
      simp only [expandPath]
      rcases hfind : findChild l name with _ | ⟨i, c⟩
      · simp only [hfind, wfNode, wfOpt, Bool.and_eq_true, Bool.not_eq_true']
        exact ⟨⟨rfl, hwl⟩, trivial⟩
      · simp only [hfind, wfNode, wfOpt, Bool.and_eq_true, Bool.not_eq_true']
        have hwfc : wfNode c = true := findChild_wf l name i c hwl hfind
        exact ⟨⟨rfl, wfForest_set l i _ hwl (wf_expandPath c rest hwfc)⟩, trivial⟩

/-- Claim C9: collapse, expandAll, toggle and expandPath each preserve the
invariant that no node carries both a non-null visible children reference
and a non-null hidden children reference, and toggle applied to a leaf
(neither reference set) leaves the node unchanged. -/
theorem C9_invariant_preserved (t : HNode) (names : List String)
    (h : wfNode t = true) :
    wfNode (collapse t) = true ∧ wfNode (expandAll t) = true ∧
    wfNode (toggle t) = true ∧ wfNode (expandPath t names) = true ∧
    (isLeaf t = true → toggle t = t) := by
  refine ⟨wf_collapse t h, wf_expandAll t h, wf_toggle t h,
    wf_expandPath t names h, ?_⟩
  intro hleaf
  rcases t with ⟨d, cs, hs⟩
  rcases cs with _ | l
  · rcases hs with _ | m
    · rfl
    · simp [isLeaf, HNode.children, HNode.hidden, Option.isNone] at hleaf
  · simp [isLeaf, HNode.children, HNode.hidden, Option.isNone] at hleaf

/-- Witness for C9 at a concrete two-level tree. -/
theorem C9_invariant_preserved_witness :
    wfNode (.mk ⟨some "Root", .null⟩
      (some (.cons (.mk ⟨some "A", .str "a"⟩ none
        (some (.cons (.mk ⟨some "B", .undef⟩ none none) .nil))) .nil)) none) = true ∧
    wfNode (collapse (.mk ⟨some "Root", .null⟩
      (some (.cons (.mk ⟨some "A", .str "a"⟩ none
        (some (.cons (.mk ⟨some "B", .undef⟩ none none) .nil))) .nil)) none)) = true := by
  refine ⟨by decide, ?_⟩
  exact (C9_invariant_preserved _ ["A"] (by decide)).1

/-- Claim C10: selectNode always records its argument as the selected node,
and invokes the selection callback exactly when a callback is registered
and the node's slug is truthy; a node whose slug is the empty string
counts as content for hasContent, becomes the selected node, and yet
triggers no callback. -/
theorem C10_selectNode_callback (s : TreeState) (p : List Nat) (d : NodeData) :
    (selectNodeOn s p d).selected = some p ∧
    ((selectNodeOn s p d).events ≠ s.events ↔
      (s.hasCallback && d.slug.truthy) = true) ∧
    (d.slug = .str "" →
      hasContent d = true ∧ (selectNodeOn s p d).events = s.events) := by
  refine ⟨rfl, ?_, ?_⟩
  · by_cases hcb : (s.hasCallback && d.slug.truthy) = true
    · simp [selectNodeOn, hcb]
    · simp only [Bool.not_eq_true] at hcb
      simp [selectNodeOn, hcb]
  · intro hslug
    refine ⟨by simp [hasContent, hslug], ?_⟩
    have : d.slug.truthy = false := by rw [hslug]; rfl
    simp [selectNodeOn, this]

/-- Witness for C10 at a node whose slug is the empty string. -/
theorem C10_selectNode_callback_witness :
    hasContent ⟨some "A", .str ""⟩ = true ∧
    (selectNodeOn
      { root := .mk ⟨some "R", .null⟩ none none, selected := none
        hasCallback := true, isTreeExpanded := false, events := [] }
      [0] ⟨some "A", .str ""⟩).events = [] :=
  (C10_selectNode_callback
    { root := .mk ⟨some "R", .null⟩ none none, selected := none
      hasCallback := true, isTreeExpanded := false, events := [] }
    [0] ⟨some "A", .str ""⟩).2.2 rfl

/-- Ancestor chains in path form are exactly list prefixes. -/
theorem mem_pathAncestors : ∀ (sel p : List Nat),
    p ∈ pathAncestors sel ↔ p <+: sel
  | [], _p => by
    rw [pathAncestors]
    simp [List.prefix_nil]
  | a :: as, p => by
    rw [pathAncestors]
    have hne : (a :: as) ≠ [] := List.cons_ne_nil a as
    have hIH := mem_pathAncestors ((a :: as).dropLast) p
    rw [List.mem_cons, hIH]
    constructor
    · rintro (rfl | h)
      · exact List.prefix_rfl
      · exact h.trans (List.dropLast_prefix _)
    · intro h
      rw [← List.dropLast_append_getLast hne, List.prefix_concat_iff] at h
      rcases h with h | h
      · left; rw [h, List.dropLast_append_getLast hne]
      · right; exact h
termination_by sel _p => sel.length
decreasing_by simp [List.length_dropLast]

/-- Claim C5: after selectNode the nodes classified as on the active path
are exactly the selected node and its ancestors (the prefixes of its
path), and after clearSelection no node and no link carries the active
state. -/
theorem C5_activePath_exact (s : TreeState) (sel p : List Nat) (d : NodeData) :
    (isOnActivePath (selectNodeOn s sel d) p = true ↔ p <+: sel) ∧
    isOnActivePath (clearSelection s) p = false ∧
    isLinkActive (clearSelection s) p = false := by
  refine ⟨?_, rfl, rfl⟩
  show ((pathAncestors sel).contains p = true ↔ p <+: sel)
  rw [List.elem_iff]
  exact mem_pathAncestors sel p

/-- Claim C3 counterexample: a fetch failure with the empty string as the
fallback name displays "Not Found", not the fallback name that was
passed, so the displayed title is not always the fallback name. -/
theorem C3_empty_fallback_shows_not_found :
    (loadContent .netError "" panelInit).title = "Not Found" ∧
    isVisible (loadContent .netError "" panelInit) = true ∧
    "Not Found" ≠ "" := by
  refine ⟨rfl, rfl, by decide⟩

/-- Claim C3 (amended): loadContent is a total function of the fetch
outcome — every failure is caught and rendered, never rethrown — the
panel is visible after every outcome, and on every failed outcome the
displayed title equals the fallback name provided the fallback name is
non-empty (the falsy empty string falls back to "Not Found"). -/
theorem C3_loadContent_failure (outcome : FetchOutcome) (name : String)
    (st : PanelState) (hfail : outcome.failed = true) (hname : name ≠ "") :
    (∀ o : FetchOutcome, isVisible (loadContent o name st) = true) ∧
    (loadContent outcome name st).title = name ∧
    (loadContent outcome name st).description = "Content could not be loaded." := by
  refine ⟨?_, ?_, ?_⟩
  · intro o
    rcases o with _ | ⟨ok, json⟩
    · rfl
    · rcases ok with _ | _
      · rfl
      · rcases json with _ | d
        · rfl
        · rcases hres : renderResources d.resources with _ | items <;>
            simp [loadContent, hres, showPanel, isVisible]
  · rcases outcome with _ | ⟨ok, json⟩
    · simp [loadContent, showPanel, renderError, hname]
    · rcases ok with _ | _
      · simp [loadContent, showPanel, renderError, hname]
      · rcases json with _ | d
        · simp [loadContent, showPanel, renderError, hname]
        · simp [FetchOutcome.failed] at hfail
  · rcases outcome with _ | ⟨ok, json⟩
    · rfl
    · rcases ok with _ | _
      · rfl
      · rcases json with _ | d
        · rfl
        · simp [FetchOutcome.failed] at hfail

/-- Witness for C3 at a 404 response with fallback name "Bicycles". -/
theorem C3_loadContent_failure_witness :
    (FetchOutcome.resp false none).failed = true ∧
    (loadContent (.resp false none) "Bicycles" panelInit).title = "Bicycles" :=
  ⟨rfl, (C3_loadContent_failure (.resp false none) "Bicycles" panelInit rfl
    (by decide)).2.1⟩

/-- Root data preservation for `expandPath`. -/
theorem expandPath_data : ∀ (t : HNode) (names : List String),
    (expandPath t names).data = t.data
  | .mk _ _ _, [] => rfl
  | .mk d cs hs, name :: rest => by
    rcases hs with _ | l
    · rcases cs with _ | l
      · rfl
      · simp only [expandPath]
        rcases findChild l name with _ | ⟨i, c⟩ <;> rfl
    · simp only [expandPath]
      rcases findChild l name with _ | ⟨i, c⟩ <;> rfl

/-- Root data preservation for `expandAll`. -/
theorem expandAll_data : ∀ (t : HNode), (expandAll t).data = t.data
  | .mk _ none (some _) => rfl
  | .mk _ (some _) (some _) => rfl
  | .mk _ (some _) none => rfl
  | .mk _ none none => rfl

/-- Root data preservation across the whole landing pipeline. -/
theorem applyDefaultLandingState_root_data (cfg : Landing) (s : TreeState) :
    (applyDefaultLandingState cfg s).root.data = s.root.data := by
  rcases cfg with _ | _ | names
  · rcases s with ⟨⟨d, cs, hs⟩, sel, cb, exp, ev⟩
    rcases cs with _ | l <;> rfl
  · exact expandAll_data s.root
  · rcases s with ⟨⟨d, cs, hs⟩, sel, cb, exp, ev⟩
    rcases hn : names.isEmpty with _ | _
    · rcases cs with _ | l
      · simp only [applyDefaultLandingState, hn, Bool.false_eq_true, if_false]
        exact expandPath_data (HNode.mk d none hs) names
      · simp only [applyDefaultLandingState, hn, Bool.false_eq_true, if_false]
        exact expandPath_data (HNode.mk d (some (collapseF l)) hs) names
    · simp [applyDefaultLandingState, hn]

/-- Selection application does not touch the root. -/
theorem applyDefaultSelection_root (cfg : Landing) (s : TreeState) :
    (applyDefaultSelection cfg s).root = s.root := by
  rcases cfg with _ | _ | names
  · rfl
  · rcases h : hasContent s.root.data with _ | _ <;>
      simp [applyDefaultSelection, h, selectNodeOn]
  · rcases hn : names.isEmpty with _ | _
    · simp only [applyDefaultSelection, hn, Bool.false_eq_true, if_false]
      rcases hf : findNodeByPath s.root names with _ | ⟨q, d⟩
      · rfl
      · rcases hc : hasContent d with _ | _ <;> simp [hf, hc, selectNodeOn]
    · simp [applyDefaultSelection, hn]

/-- Success of loadData is success of the hierarchy construction. -/
theorem loadData_isOk_eq (cfg : Landing) (cb : Bool) (raw : RawValue) :
    (loadData cfg cb raw).isOk = (hierarchy raw).isOk := by
  rcases h : hierarchy raw with e | r <;> simp only [loadData, h] <;> rfl

/-- Success of the hierarchy construction is independent of the root
object's `name` field. -/
theorem hierarchy_isOk_name_independent (name name' : Option String)
    (slug : Slug) (children : Option RawForest) :
    (hierarchy (.obj name slug children)).isOk
      = (hierarchy (.obj name' slug children)).isOk := by
  rcases children with _ | f
  · rfl
  · rcases f with _ | ⟨c, cs⟩
    · rfl
    · simp only [hierarchy]
      rcases hierarchyF (RawForest.cons c cs) with e | l <;> rfl

/-- Claim C8: loadData on root data whose `name` is missing does not throw
(the TypeError path of the model is never taken just because the name is
missing: success coincides with any named variant of the same data), and
malformed minimal data degrades to a minimal render — a single unlabeled
visible root node — for every landing configuration. -/
theorem C8_missing_name_silent (cfg : Landing) (cb : Bool) (slug : Slug)
    (children : Option RawForest) (name : Option String) (st : TreeState)
    (h : loadData cfg cb (.obj none slug none) = .ok st) :
    (loadData cfg cb (.obj none slug children)).isOk
      = (loadData cfg cb (.obj name slug children)).isOk ∧
    (loadData cfg cb (.obj none slug none)).isOk = true ∧
    nodeLabel st.root.data = "" ∧
    visiblePaths st.root = [[]] ∧
    st.selected = (loadData cfg cb (.obj none slug none)).toOption.bind
      TreeState.selected := by
  refine ⟨?_, ?_, ?_, ?_, ?_⟩
  · rw [loadData_isOk_eq, loadData_isOk_eq]
    exact hierarchy_isOk_name_independent none name slug children
  · rw [loadData_isOk_eq]; rfl
  · have hd : st.root.data = ⟨none, slug⟩ := by
      have h0 : hierarchy (.obj none slug none) = .ok (.mk ⟨none, slug⟩ none none) := rfl
      rw [loadData, h0] at h
      injection h with h
      rw [← h, applyDefaultSelection_root, applyDefaultLandingState_root_data]
      rfl
    rw [hd]; rfl
  · have h0 : hierarchy (.obj none slug none) = .ok (.mk ⟨none, slug⟩ none none) := rfl
    rw [loadData, h0] at h
    injection h with h
    have hroot : st.root = .mk ⟨none, slug⟩ none none := by
      rw [← h, applyDefaultSelection_root]
      rcases cfg with _ | _ | names
      · rfl
      · rfl
      · rcases hn : names.isEmpty with _ | _
        · rcases names with _ | ⟨nm, rest⟩
          · simp at hn
          · simp [applyDefaultLandingState, hn, expandPath]
        · simp [applyDefaultLandingState, hn]
    rw [hroot]; rfl
  · rw [h]; rfl

/-- Witness for C8: the literal `{}` payload (no name, no slug, no
children) under the repository's configured `expanded` landing. -/
theorem C8_missing_name_silent_witness :
    (∃ st, loadData .expanded false (.obj none .undef none) = .ok st) ∧
    (loadData .expanded false (.obj none .undef none)).isOk = true := by
  refine ⟨⟨{ root := .mk ⟨none, .undef⟩ none none, selected := none
             hasCallback := false, isTreeExpanded := true, events := [] }, rfl⟩, ?_⟩
  exact (C8_missing_name_silent .expanded false .undef none none
    { root := .mk ⟨none, .undef⟩ none none, selected := none
      hasCallback := false, isTreeExpanded := true, events := [] } rfl).2.1

/-- Claim C6 counterexample: for a body whose first rendered element is the
paragraph "Hello world." but which contains a second identical paragraph,
the description shows "Hello world." and yet that sentence still appears
in the main body — only the first paragraph element is removed. -/
theorem C6_duplicate_sentence_remains :
    (renderContent ⟨none, none, [], none, none,
        [.p "Hello world.", .p "Hello world."], [], []⟩ "X" panelInit).description
      = "Hello world." ∧
    "Hello world." ∈ paraTexts (renderContent ⟨none, none, [], none, none,
        [.p "Hello world.", .p "Hello world."], [], []⟩ "X" panelInit).body := by
  refine ⟨rfl, by decide⟩

/-- Claim C6 (amended): with no truthy description field and a body whose
first element is a paragraph, renderContent displays that paragraph's text
as the description and removes that paragraph element from the shown body;
the sentence therefore no longer occurs among the body's paragraphs
whenever no other paragraph carried the same text (a duplicate elsewhere
in the body is not removed). -/
theorem C6_description_extraction (data : Record) (name s : String)
    (rest : List HtmlNode) (st : PanelState)
    (hdesc : strTruthy data.description = false)
    (hcontent : data.content = .p s :: rest) :
    (renderContent data name st).description = s ∧
    (renderContent data name st).descriptionVisible = true ∧
    (renderContent data name st).body = rest ∧
    (s ∉ paraTexts rest → s ∉ paraTexts (renderContent data name st).body) := by
  refine ⟨?_, ?_, ?_, ?_⟩ <;>
    simp [renderContent, hdesc, hcontent, findFirstP]

/-- Witness for C6 at a record whose body is the "Hello world." paragraph
followed by an opaque list element. -/
theorem C6_description_extraction_witness :
    (renderContent ⟨none, none, [], none, none,
        [.p "Hello world.", .other "<ul>more</ul>"], [], []⟩ "Note"
        panelInit).description = "Hello world." ∧
    (renderContent ⟨none, none, [], none, none,
        [.p "Hello world.", .other "<ul>more</ul>"], [], []⟩ "Note"
        panelInit).body = [.other "<ul>more</ul>"] := by
  have h := C6_description_extraction
    ⟨none, none, [], none, none, [.p "Hello world.", .other "<ul>more</ul>"], [], []⟩
    "Note" "Hello world." [.other "<ul>more</ul>"] panelInit rfl rfl
  exact ⟨h.1, h.2.2.1⟩

/-- Landing-state application leaves the selected node untouched. -/
theorem applyDefaultLandingState_selected (cfg : Landing) (s : TreeState) :
    (applyDefaultLandingState cfg s).selected = s.selected := by
  rcases cfg with _ | _ | names
  · rcases s with ⟨⟨d, cs, hs⟩, sel, cb, exp, ev⟩
    rcases cs with _ | l <;> rfl
  · rfl
  · rcases hn : names.isEmpty with _ | _ <;>
      simp [applyDefaultLandingState, hn]

/-- Raw data of the spec's example tree:
Root (no content) with child Interests (no content), whose children are
Minerals and Bicycles (both with content). -/
def interestsRaw : RawValue :=
  .obj (some "Root") .null (some (.cons
    (.obj (some "Interests") .null (some (.cons
      (.obj (some "Minerals") (.str "minerals") none)
      (.cons (.obj (some "Bicycles") (.str "bicycles") none) .nil))))
    .nil))

/-- Claim C1: for the 'path' landing policy with a non-empty path, loadData
selects the node the name sequence resolves to exactly when it carries
content, and no node otherwise; on the example tree, the path
["Interests", "Bicycles"] selects the Bicycles node (visible at index
path [0, 1]), while ["Interests", "Kites"] leaves Interests expanded
(Minerals and Bicycles visible) with no node selected. -/
theorem C1_path_landing :
    (∀ (cb : Bool) (raw : RawValue) (names : List String) (st : TreeState),
      names ≠ [] → loadData (.path names) cb raw = .ok st →
      st.selected = (match findNodeByPath st.root names with
        | some (q, d) => if hasContent d then some q else none
        | none => none)) ∧
    (loadData (.path ["Interests", "Bicycles"]) false interestsRaw).toOption.map
        (fun st => (st.selected, visiblePaths st.root))
      = some (some [0, 1], [[], [0], [0, 0], [0, 1]]) ∧
    ((loadData (.path ["Interests", "Bicycles"]) false interestsRaw).toOption.bind
        (fun st => nodeAt st.root [0, 1])).map HNode.data
      = some ⟨some "Bicycles", .str "bicycles"⟩ ∧
    (loadData (.path ["Interests", "Kites"]) false interestsRaw).toOption.map
        (fun st => (st.selected, visiblePaths st.root))
      = some (none, [[], [0], [0, 0], [0, 1]]) := by
  refine ⟨?_, rfl, rfl, rfl⟩
  intro cb raw names st hne hload
  rcases h : hierarchy raw with e | r
  · rw [loadData, h] at hload
    cases hload
  · rw [loadData, h] at hload
    injection hload with hst
    have hne' : names.isEmpty = false := by
      cases names
      · exact absurd rfl hne
      · rfl
    rw [← hst, applyDefaultSelection_root]
    set s1 := applyDefaultLandingState (.path names)
      { root := r, selected := none, hasCallback := cb
        isTreeExpanded := false, events := [] } with hs1
    simp only [applyDefaultSelection, hne', Bool.false_eq_true, if_false]
    rcases hf : findNodeByPath s1.root names with _ | ⟨q, d⟩
    · rw [hs1, applyDefaultLandingState_selected]
    · rcases hc : hasContent d with _ | _
      · simp only [hc, Bool.false_eq_true, if_false]
        rw [hs1, applyDefaultLandingState_selected]
      · simp only [hc, if_true, selectNodeOn]

/-- Witness for C1's general clause at the example tree and path. -/
theorem C1_path_landing_witness :
    ∃ st, loadData (.path ["Interests", "Bicycles"]) false interestsRaw
        = .ok st ∧
      st.selected = (match findNodeByPath st.root ["Interests", "Bicycles"] with
        | some (q, d) => if hasContent d then some q else none
        | none => none) :=
  ⟨_, rfl, (C1_path_landing).1 false interestsRaw ["Interests", "Bicycles"] _
    (List.cons_ne_nil _ _) rfl⟩

/-- Claim C4 counterexample: load the collapsed landing on a root that
carries content, click the root (expands, first click), click it again
(selects and re-collapses), then click it a third time: the tree is again
in the fully collapsed state, the click is not the very first one, the
root carries content and has hidden children — yet the third click fires
no selection callback, while an actual selectNode call would have. -/
theorem C4_third_root_click_not_selected :
    loadData .collapsed true (.obj (some "Root") (.str "about")
        (some (.cons (.obj (some "A") .null none) .nil)))
      = .ok { root := .mk ⟨some "Root", .str "about"⟩ none
                (some (.cons (.mk ⟨some "A", .null⟩ none none) .nil))
              selected := none, hasCallback := true
              isTreeExpanded := false, events := [] } ∧
    (let s0 : TreeState :=
      { root := .mk ⟨some "Root", .str "about"⟩ none
          (some (.cons (.mk ⟨some "A", .null⟩ none none) .nil))
        selected := none, hasCallback := true
        isTreeExpanded := false, events := [] }
     let s1 := handleNodeClick s0 []
     let s2 := handleNodeClick s1 []
     let s3 := handleNodeClick s2 []
     isCollapsed s2.root = true ∧
     (nodeAt s2.root []).map HNode.data = some ⟨some "Root", .str "about"⟩ ∧
     hasContent ⟨some "Root", .str "about"⟩ = true ∧
     s2.events = [("about", some "Root")] ∧
     s3.events = s2.events ∧
     (selectNodeOn s2 [] ⟨some "Root", .str "about"⟩).events ≠ s2.events ∧
     s3.root = s1.root) := by
  exact ⟨rfl, rfl, rfl, rfl, rfl, rfl, by decide, rfl⟩

/-- Claim C4 (amended): clicking a visible node toggles its expand state
when it has visible or hidden children and triggers selection when it
carries content, except that every click on the root node while the root
has no visible children (the fully collapsed state, whether at landing or
after re-collapsing) performs expansion only: the selection and the
callback history are untouched even when the root carries content. -/
theorem C4_click_behavior (s : TreeState) (p : List Nat) (d : HNode)
    (h : nodeAt s.root p = some d) :
    (p = [] ∧ isCollapsed s.root = true →
      handleNodeClick s p
          = { s with isTreeExpanded := true, root := toggleAt s.root [] } ∧
      (handleNodeClick s p).selected = s.selected ∧
      (handleNodeClick s p).events = s.events) ∧
    (¬(p = [] ∧ isCollapsed s.root = true) →
      ((handleNodeClick s p).selected
          = if hasContent d.data then some p else s.selected) ∧
      ((handleNodeClick s p).root
          = if d.children.isSome || d.hidden.isSome then toggleAt s.root p
            else s.root) ∧
      ((handleNodeClick s p).events ≠ s.events ↔
        (s.hasCallback && d.data.slug.truthy) = true)) := by
  constructor
  · rintro ⟨rfl, hcol⟩
    have hred : handleNodeClick s []
        = { s with isTreeExpanded := true, root := toggleAt s.root [] } := by
      rw [handleNodeClick, h]
      simp [hcol]
    rw [hred]
    exact ⟨rfl, rfl, rfl⟩
  · intro hn
    have hb : (decide (p = []) && isCollapsed s.root) = false := by
      by_cases hp : p = []
      · rcases hcol : isCollapsed s.root with _ | _
        · simp [hp, hcol]
        · exact absurd ⟨hp, hcol⟩ hn
      · simp [hp]
    have htr : hasContent d.data = false → d.data.slug.truthy = false := by
      intro hcf
      rcases hsl : d.data.slug with _ | _ | s'
      · rfl
      · rfl
      · rw [hasContent, hsl] at hcf
        cases hcf
    rw [handleNodeClick, h, hb]
    simp only [Bool.false_eq_true, if_false]
    rcases hc : hasContent d.data with _ | _ <;>
      rcases ht : (d.children.isSome || d.hidden.isSome) with _ | _ <;>
      simp only [hc, ht, Bool.false_eq_true, if_false, if_true]
    · refine ⟨?_, ?_, by simp [htr hc]⟩ <;> trivial
    · refine ⟨?_, ?_, by simp [htr hc]⟩ <;> trivial
    · refine ⟨rfl, rfl, ?_⟩
      rcases hcb : (s.hasCallback && d.data.slug.truthy) with _ | _ <;>
        simp [selectNodeOn, hcb]
    · refine ⟨rfl, rfl, ?_⟩
      rcases hcb : (s.hasCallback && d.data.slug.truthy) with _ | _ <;>
        simp [selectNodeOn, hcb]

/-- Witness for C4 at a non-root content leaf and at the collapsed root. -/
theorem C4_click_behavior_witness :
    (handleNodeClick
      { root := .mk ⟨some "R", .str "r"⟩
          (some (.cons (.mk ⟨some "A", .str "a"⟩ none none) .nil)) none
        selected := none, hasCallback := false
        isTreeExpanded := true, events := [] } [0]).selected = some [0] := by
  have h := (C4_click_behavior
    { root := .mk ⟨some "R", .str "r"⟩
        (some (.cons (.mk ⟨some "A", .str "a"⟩ none none) .nil)) none
      selected := none, hasCallback := false
      isTreeExpanded := true, events := [] } [0]
    (.mk ⟨some "A", .str "a"⟩ none none) rfl).2
    (by rintro ⟨hp, -⟩; cases hp)
  rw [h.1]
  rfl

/-- Lookup after in-place replacement at the same (in-range) index. -/
theorem Forest.get?_set_eq : ∀ (l : Forest) (i : Nat) (x : HNode),
    (l.get? i).isSome = true → (l.set i x).get? i = some x
  | .nil, i, _, h => by simp [Forest.get?] at h
  | .cons c cs, 0, x, _ => rfl
  | .cons c cs, i + 1, x, h => Forest.get?_set_eq cs i x h

/-- Replacing twice at one index keeps only the second replacement. -/
theorem Forest.set_set : ∀ (l : Forest) (i : Nat) (x y : HNode),
    (l.set i x).set i y = l.set i y
  | .nil, _, _, _ => rfl
  | .cons _ _, 0, _, _ => rfl
  | .cons c cs, i + 1, x, y => congrArg (Forest.cons c) (Forest.set_set cs i x y)

/-- Replacing an element by itself is the identity. -/
theorem Forest.set_get_self : ∀ (l : Forest) (i : Nat) (c : HNode),
    l.get? i = some c → l.set i c = l
  | .nil, _, _, h => nomatch h
  | .cons c0 cs, 0, c, h => by
    simp only [Forest.get?, Option.some.injEq] at h
    rw [Forest.set, ← h]
  | .cons c0 cs, i + 1, c, h =>
    congrArg (Forest.cons c0) (Forest.set_get_self cs i c h)

/-- Invariant of an in-range element of a child array. -/
theorem wfForest_get? : ∀ (l : Forest) (i : Nat) (c : HNode),
    wfForest l = true → l.get? i = some c → wfNode c = true
  | .nil, _, _, _, h => nomatch h
  | .cons c0 cs, 0, c, hw, h => by
    simp only [Forest.get?, Option.some.injEq] at h
    simp only [wfForest, Bool.and_eq_true] at hw
    exact h ▸ hw.1
  | .cons c0 cs, i + 1, c, hw, h => by
    simp only [wfForest, Bool.and_eq_true] at hw
    exact wfForest_get? cs i c hw.2 h

/-- Invariant of the node a path resolves to. -/
theorem wf_nodeAt : ∀ (t : HNode) (p : List Nat) (n : HNode),
    wfNode t = true → nodeAt t p = some n → wfNode n = true
  | t, [], n, hw, h => by
    simp only [nodeAt, Option.some.injEq] at h
    exact h ▸ hw
  | .mk d cs hs, i :: p, n, hw, h => by
    rcases cs with _ | l
    · cases h
    · simp only [nodeAt] at h
      rcases hg : l.get? i with _ | c
      · rw [hg] at h; cases h
      · rw [hg] at h
        simp only [wfNode, wfOpt, Bool.and_eq_true] at hw
        exact wf_nodeAt c p n (wfForest_get? l i c hw.1.2 hg) h

/-- Unfolding of `toggleAt` at the empty path. -/
theorem toggleAt_nil : ∀ t, toggleAt t [] = toggle t
  | .mk _ none none => rfl
  | .mk _ none (some _) => rfl
  | .mk _ (some _) none => rfl
  | .mk _ (some _) (some _) => rfl

/-- Toggling a leaf through a path leaves the tree unchanged. -/
theorem toggleAt_leaf : ∀ (t : HNode) (p : List Nat) (n : HNode),
    nodeAt t p = some n → isLeaf n = true → toggleAt t p = t
  | t, [], n, h, hleaf => by
    simp only [nodeAt, Option.some.injEq] at h
    rw [← h] at hleaf
    clear h
    rw [toggleAt_nil]
    rcases t with ⟨d, cs, hs⟩
    rcases cs with _ | l
    · rcases hs with _ | m
      · rfl
      · simp [isLeaf, HNode.children, HNode.hidden] at hleaf
    · simp [isLeaf, HNode.children, HNode.hidden] at hleaf
  | .mk d cs hs, i :: p, n, h, hleaf => by
    rcases cs with _ | l
    · cases h
    · simp only [nodeAt] at h
      rcases hg : l.get? i with _ | c
      · rw [hg] at h; cases h
      · rw [hg] at h
        simp only [toggleAt, hg]
        rw [toggleAt_leaf c p n h hleaf, Forest.set_get_self l i c hg]

/-- The node a path resolves to after toggling at that path. -/
theorem nodeAt_toggleAt : ∀ (t : HNode) (p : List Nat) (n : HNode),
    nodeAt t p = some n → nodeAt (toggleAt t p) p = some (toggle n)
  | t, [], n, h => by
    simp only [nodeAt, Option.some.injEq] at h
    subst h
    rw [toggleAt_nil]
    simp [nodeAt]
  | .mk d cs hs, i :: p, n, h => by
    rcases cs with _ | l
    · cases h
    · simp only [nodeAt] at h
      rcases hg : l.get? i with _ | c
      · rw [hg] at h; cases h
      · rw [hg] at h
        simp only [toggleAt, hg, nodeAt]
        rw [Forest.get?_set_eq l i _ (by rw [hg]; rfl)]
        exact nodeAt_toggleAt c p n h

/-- Toggling twice at one path restores the tree, provided the target node
satisfies the two-pointer invariant locally. -/
theorem toggleAt_toggleAt : ∀ (t : HNode) (p : List Nat) (n : HNode),
    nodeAt t p = some n → (n.children.isSome && n.hidden.isSome) = false →
    toggleAt (toggleAt t p) p = t
  | t, [], n, h, hwf => by
    simp only [nodeAt, Option.some.injEq] at h
    rw [← h] at hwf
    clear h
    rw [toggleAt_nil]
    rcases t with ⟨d, cs, hs⟩
    rcases cs with _ | l
    · rcases hs with _ | m
      · rfl
      · rfl
    · rcases hs with _ | m
      · rfl
      · simp [HNode.children, HNode.hidden] at hwf
  | .mk d cs hs, i :: p, n, h, hwf => by
    rcases cs with _ | l
    · cases h
    · simp only [nodeAt] at h
      rcases hg : l.get? i with _ | c
      · rw [hg] at h; cases h
      · rw [hg] at h
        simp only [toggleAt, hg]
        rw [Forest.get?_set_eq l i _ (by rw [hg]; rfl)]
        show HNode.mk d
            (some ((l.set i (toggleAt c p)).set i (toggleAt (toggleAt c p) p)))
            hs = HNode.mk d (some l) hs
        rw [Forest.set_set, toggleAt_toggleAt c p n h hwf,
          Forest.set_get_self l i c hg]

/-- Predicate keeping the visible paths that are not strict descendants of
`p` (i.e. everything except paths strictly below the toggled node). -/
def notStrictDesc (p q : List Nat) : Bool :=
  !(p.isPrefixOf q && p != q)

/-- Every visible path contributed by a child array starting at index `j`
is non-empty with head at least `j`. -/
theorem visibleF_head_bound : ∀ (cs : Forest) (j : Nat) (q : List Nat),
    q ∈ visibleF j cs → ∃ k q', q = k :: q' ∧ j ≤ k
  | .nil, j, q, h => by simp [visibleF] at h
  | .cons c cs, j, q, h => by
    simp only [visibleF, List.mem_append] at h
    rcases h with h | h
    · rcases List.mem_map.mp h with ⟨q', _, rfl⟩
      exact ⟨j, q', rfl, le_rfl⟩
    · rcases visibleF_head_bound cs (j + 1) q h with ⟨k, q', rfl, hk⟩
      exact ⟨k, q', rfl, by omega⟩

/-- Filtering a cons-mapped path list is filtering under the head. -/
theorem filter_map_consHead (j : Nat) (P : List Nat → Bool)
    (l : List (List Nat)) :
    (l.map (j :: ·)).filter P = (l.filter (fun q => P (j :: q))).map (j :: ·) := by
  rw [List.filter_map]
  rfl


/-- Stripping a common head from the strict-descendant test. -/
theorem notStrictDesc_cons (j : Nat) (p q : List Nat) :
    notStrictDesc (j :: p) (j :: q) = notStrictDesc p q := by
  show (!(((j == j) && p.isPrefixOf q) && !((j == j) && (p == q))))
      = (!(p.isPrefixOf q && !(p == q)))
  rw [beq_self_eq_true, Bool.true_and, Bool.true_and]

/-- Paths with distinct heads are never strict descendants. -/
theorem notStrictDesc_cons_ne (a b : Nat) (p q : List Nat) (hab : a ≠ b) :
    notStrictDesc (a :: p) (b :: q) = true := by
  show (!(((a == b) && p.isPrefixOf q) && !((a == b) && (p == q)))) = true
  have hb : (a == b) = false := by
    cases hh : (a == b) with
    | false => rfl
    | true => exact absurd (eq_of_beq hh) hab
  rw [hb]
  rfl

mutual
/-- Toggling the visible node at `p` when it has visible children removes
exactly the strict descendants of `p` from the visible path list. -/
theorem visible_toggleAt : ∀ (t : HNode) (p : List Nat) (n : HNode) (cs : Forest),
    nodeAt t p = some n → n.children = some cs →
    visiblePaths (toggleAt t p) = (visiblePaths t).filter (notStrictDesc p)
  | .mk d tcs ths, [], n, cs, h, hcs => by
    simp only [nodeAt, Option.some.injEq] at h
    rw [← h] at hcs
    clear h
    have htc : tcs = some cs := hcs
    subst htc
    have hnil : (visibleF 0 cs).filter (notStrictDesc []) = [] := by
      refine List.filter_eq_nil_iff.mpr ?_
      intro q hq
      rcases visibleF_head_bound cs 0 q hq with ⟨k, q', rfl, -⟩
      rw [show notStrictDesc [] (k :: q') = false from rfl]
      exact Bool.false_ne_true
    calc visiblePaths (toggleAt (HNode.mk d (some cs) ths) [])
        = [[]] := by rw [toggleAt_nil]; rfl
      _ = ([] : List Nat) :: (visibleF 0 cs).filter (notStrictDesc []) := by
            rw [hnil]
      _ = (([] : List Nat) :: visibleF 0 cs).filter (notStrictDesc []) := by
            rw [List.filter_cons]
            rw [show notStrictDesc [] [] = true from rfl]
            simp only [if_true]
      _ = (visiblePaths (HNode.mk d (some cs) ths)).filter (notStrictDesc []) := rfl
  | .mk d tcs ths, i :: p', n, cs, h, hcs => by
    rcases tcs with _ | l
    · cases h
    · simp only [nodeAt] at h
      rcases hg : l.get? i with _ | c
      · rw [hg] at h; cases h
      · rw [hg] at h
        simp only [toggleAt, hg]
        have hforest := visibleF_toggle_set l i 0 p' c n cs hg h hcs
        calc visiblePaths (HNode.mk d (some (l.set i (toggleAt c p'))) ths)
            = [] :: visibleF 0 (l.set i (toggleAt c p')) := rfl
          _ = [] :: (visibleF 0 l).filter (notStrictDesc ((0 + i) :: p')) := by
                rw [hforest]
          _ = [] :: (visibleF 0 l).filter (notStrictDesc (i :: p')) := by
                rw [Nat.zero_add]
          _ = (([] : List Nat) :: visibleF 0 l).filter (notStrictDesc (i :: p')) := by
                rw [List.filter_cons]
                rw [show notStrictDesc (i :: p') [] = true from rfl]
                simp only [if_true]
          _ = (visiblePaths (HNode.mk d (some l) ths)).filter
                (notStrictDesc (i :: p')) := rfl
  termination_by t p => (p.length, sizeOf t)
/-- Forest version of `visible_toggleAt`: toggling inside the `i`-th child
of an array whose visible paths start at index `j`. -/
theorem visibleF_toggle_set : ∀ (l : Forest) (i j : Nat) (p' : List Nat)
    (c n : HNode) (cs : Forest),
    l.get? i = some c → nodeAt c p' = some n → n.children = some cs →
    visibleF j (l.set i (toggleAt c p'))
      = (visibleF j l).filter (notStrictDesc ((j + i) :: p'))
  | .nil, _, _, _, _, _, _, hg, _, _ => nomatch hg
  | .cons c0 cs0, 0, j, p', c, n, cs, hg, h, hcs => by
    simp only [Forest.get?, Option.some.injEq] at hg
    subst hg
    have hmain := visible_toggleAt c0 p' n cs h hcs
    show (visiblePaths (toggleAt c0 p')).map (j :: ·) ++ visibleF (j + 1) cs0
        = ((visiblePaths c0).map (j :: ·) ++ visibleF (j + 1) cs0).filter
            (notStrictDesc ((j + 0) :: p'))
    rw [List.filter_append, hmain, filter_map_consHead]
    have hpt : ∀ q ∈ visiblePaths c0,
        notStrictDesc p' q = notStrictDesc ((j + 0) :: p') (j :: q) := by
      intro q _
      rw [Nat.add_zero, notStrictDesc_cons]
    have htail : (visibleF (j + 1) cs0).filter (notStrictDesc ((j + 0) :: p'))
        = visibleF (j + 1) cs0 := by
      refine List.filter_eq_self.mpr ?_
      intro q hq
      rcases visibleF_head_bound cs0 (j + 1) q hq with ⟨k, q', rfl, hk⟩
      exact notStrictDesc_cons_ne (j + 0) k p' q' (by omega)
    rw [htail, List.filter_congr hpt]
  | .cons c0 cs0, i + 1, j, p', c, n, cs, hg, h, hcs => by
    have hrec := visibleF_toggle_set cs0 i (j + 1) p' c n cs hg h hcs
    show (visiblePaths c0).map (j :: ·)
          ++ visibleF (j + 1) (cs0.set i (toggleAt c p'))
        = ((visiblePaths c0).map (j :: ·) ++ visibleF (j + 1) cs0).filter
            (notStrictDesc ((j + (i + 1)) :: p'))
    rw [List.filter_append, hrec]
    have heq : j + 1 + i = j + (i + 1) := by omega
    rw [heq]
    have hhead : ((visiblePaths c0).map (j :: ·)).filter
        (notStrictDesc ((j + (i + 1)) :: p')) = (visiblePaths c0).map (j :: ·) := by
      refine List.filter_eq_self.mpr ?_
      intro q hq
      rcases List.mem_map.mp hq with ⟨q0, -, rfl⟩
      exact notStrictDesc_cons_ne (j + (i + 1)) j p' q0 (by omega)
    rw [hhead]
  termination_by l _i _j p' => (p'.length, sizeOf l)
end

/-- Effect of a click on the tree structure: whatever the selection side
effects, the root graph is the path-toggled graph (a click on a leaf
leaves it unchanged, which `toggleAt` also does). -/
theorem handleNodeClick_root (s : TreeState) (p : List Nat) (d : HNode)
    (h : nodeAt s.root p = some d) :
    (handleNodeClick s p).root = toggleAt s.root p := by
  by_cases hb : (decide (p = []) && isCollapsed s.root) = true
  · have hb2 := hb
    rw [Bool.and_eq_true] at hb2
    have hp : p = [] := of_decide_eq_true hb2.1
    subst hp
    simp only [handleNodeClick, h, eq_self_iff_true, decide_True, Bool.true_and,
      hb2.2, if_true]
  · have hb' : (decide (p = []) && isCollapsed s.root) = false := by
      rcases hx : (decide (p = []) && isCollapsed s.root) with _ | _
      · rfl
      · exact absurd hx hb
    rw [handleNodeClick, h]
    simp only [hb', Bool.false_eq_true, if_false]
    rcases hc : hasContent d.data with _ | _ <;>
      rcases ht : (d.children.isSome || d.hidden.isSome) with _ | _ <;>
        simp only [hc, ht, Bool.false_eq_true, if_false, if_true]
    all_goals try rfl
    all_goals {
      have hleaf : isLeaf d = true := by
        rcases Bool.or_eq_false_iff.mp ht with ⟨h1, h2⟩
        rcases hdc : d.children with _ | x
        · rcases hdh : d.hidden with _ | y
          · rw [isLeaf, hdc, hdh]; rfl
          · rw [hdh] at h2; simp at h2
        · rw [hdc] at h1; simp at h1
      exact (toggleAt_leaf s.root p d h hleaf).symm
    }

/-- Claim C2: clicking a visible node that has visible children collapses
it: exactly its strict descendants leave the visible set, the hidden
children keep each descendant's expand state verbatim, and clicking the
same node again restores the visible node set (indeed the whole node
graph) to its original contents. -/
theorem C2_toggle_restores (s : TreeState) (p : List Nat) (n : HNode)
    (cs : Forest) (hn : nodeAt s.root p = some n) (hcs : n.children = some cs)
    (hwf : wfNode s.root = true) :
    (handleNodeClick s p).root = toggleAt s.root p ∧
    nodeAt (handleNodeClick s p).root p = some (.mk n.data none (some cs)) ∧
    visiblePaths (handleNodeClick s p).root
      = (visiblePaths s.root).filter (notStrictDesc p) ∧
    (handleNodeClick (handleNodeClick s p) p).root = s.root ∧
    visiblePaths (handleNodeClick (handleNodeClick s p) p).root
      = visiblePaths s.root := by
  have hwl := wf_nodeAt s.root p n hwf hn
  have hnb : (n.children.isSome && n.hidden.isSome) = false := by
    rcases n with ⟨nd, ncs, nhs⟩
    simp only [wfNode, Bool.and_eq_true, Bool.not_eq_true'] at hwl
    exact hwl.1.1
  have h1 : (handleNodeClick s p).root = toggleAt s.root p :=
    handleNodeClick_root s p n hn
  have hhid : n.hidden = none := by
    rcases n with ⟨nd, ncs, nhs⟩
    have hc : ncs = some cs := hcs
    subst hc
    rcases nhs with _ | y
    · rfl
    · simp [HNode.children, HNode.hidden] at hnb
  have htog : toggle n = .mk n.data none (some cs) := by
    rcases n with ⟨nd, ncs, nhs⟩
    have hc : ncs = some cs := hcs
    subst hc
    have hh : nhs = none := hhid
    subst hh
    rfl
  have h2 : nodeAt (handleNodeClick s p).root p
      = some (.mk n.data none (some cs)) := by
    rw [h1, nodeAt_toggleAt s.root p n hn, htog]
  have h3 : visiblePaths (handleNodeClick s p).root
      = (visiblePaths s.root).filter (notStrictDesc p) := by
    rw [h1]
    exact visible_toggleAt s.root p n cs hn hcs
  have hn2 : nodeAt (handleNodeClick s p).root p = some (toggle n) := by
    rw [h1]
    exact nodeAt_toggleAt s.root p n hn
  have h4 : (handleNodeClick (handleNodeClick s p) p).root = s.root := by
    rw [handleNodeClick_root (handleNodeClick s p) p (toggle n) hn2, h1]
    exact toggleAt_toggleAt s.root p n hn hnb
  exact ⟨h1, h2, h3, h4, by rw [h4]⟩

/-- Witness for C2: collapsing and re-expanding the root of a two-node
tree restores the visible set. -/
theorem C2_toggle_restores_witness :
    visiblePaths (handleNodeClick (handleNodeClick
      { root := .mk ⟨some "R", .null⟩
          (some (.cons (.mk ⟨some "A", .str "a"⟩ none none) .nil)) none
        selected := none, hasCallback := false
        isTreeExpanded := true, events := [] } []) []).root
      = visiblePaths (HNode.mk ⟨some "R", .null⟩
          (some (.cons (.mk ⟨some "A", .str "a"⟩ none none) .nil)) none) :=
  (C2_toggle_restores
    { root := .mk ⟨some "R", .null⟩
        (some (.cons (.mk ⟨some "A", .str "a"⟩ none none) .nil)) none
      selected := none, hasCallback := false
      isTreeExpanded := true, events := [] } []
    (.mk ⟨some "R", .null⟩
      (some (.cons (.mk ⟨some "A", .str "a"⟩ none none) .nil)) none)
    (.cons (.mk ⟨some "A", .str "a"⟩ none none) .nil)
    rfl rfl rfl).2.2.2.2
